import Mathlib

set_option maxRecDepth 4000

/- Shallow embedding of the Amazon Best Sellers (Electronics) scraper:
   text normalization and field parsing (src/parser.py), dataset validation
   and deduplication (src/data_handler.py, src/main.py), the page/item
   processing loop (src/main.py, scrape) and the scroll-to-bottom loop
   (src/browser_manager.py).  Strings are modelled as lists of characters;
   the Python floats produced by parsing short decimal literals are
   modelled exactly as rationals. -/

/-- Whitespace class: the ASCII characters matched by the regex class
backslash-s and stripped by str.strip. -/
def isWs (c : Char) : Bool :=
  c == ' ' || c == '\t' || c == '\n' || c == '\r' || c == '\x0b' || c == '\x0c'

/-- Replacement of every maximal whitespace run by a single space, as
performed by re.sub on the whitespace-run pattern in
Parser._normalize_text (src/parser.py line 21). -/
def collapse : List Char → List Char
  | [] => []
  | [a] => if isWs a then [' '] else [a]
  | a :: b :: rest =>
    if isWs a && isWs b then collapse (b :: rest)
    else (if isWs a then ' ' else a) :: collapse (b :: rest)

/-- Removal of trailing whitespace, the right half of str.strip. -/
def dropTrailWs : List Char → List Char
  | [] => []
  | a :: rest =>
    let r := dropTrailWs rest
    if r = [] && isWs a then [] else a :: r

/-- str.strip: removal of leading and trailing whitespace. -/
def stripWs (l : List Char) : List Char :=
  dropTrailWs (l.dropWhile isWs)

/-- Parser._normalize_text (src/parser.py lines 17-21): absent or empty
input yields the empty string, otherwise whitespace runs are collapsed to
one space and the ends are stripped. -/
def normalize_text (raw : Option (List Char)) : List Char :=
  match raw with
  | none => []
  | some s => if s = [] then [] else stripWs (collapse s)

/-- Value of a decimal digit string read left to right, as Python int and
the integer part of Python float read digit strings. -/
def digitsToNat (l : List Char) : Nat :=
  l.foldl (fun a c => 10 * a + (c.toNat - 48)) 0

/-- Exact rational value of a numeral made of digits and at most one
decimal point, the shape of every string this development feeds to the
Python float constructor. -/
def ratOfNumString (s : List Char) : ℚ :=
  let ip := s.takeWhile (fun c => c != '.')
  let fp := (s.dropWhile (fun c => c != '.')).drop 1
  (digitsToNat ip : ℚ) + (digitsToNat fp : ℚ) / (10 : ℚ) ^ fp.length

/-- Python float() on the digit-and-dot strings produced by the price and
rating regexes: succeeds exactly when the string has at most one dot and
at least one digit (otherwise ValueError), yielding the exact decimal
value. -/
def pyFloat (s : List Char) : Option ℚ :=
  if (s.all fun c => c.isDigit || c == '.') && s.count '.' ≤ 1 && s.any (fun c => c.isDigit) then
    some (ratOfNumString s)
  else none

/-- Character class of the price regex: digits, grouping commas and the
decimal point. -/
def isPriceChar (c : Char) : Bool :=
  c.isDigit || c == ',' || c == '.'

/-- Leftmost maximal run of characters satisfying p, as re.search finds
for a greedy one-class pattern; none when no character matches. -/
def firstRun (p : Char → Bool) : List Char → Option (List Char)
  | [] => none
  | c :: cs => if p c then some (c :: cs.takeWhile p) else firstRun p cs

/-- The non-breaking space character replaced by Parser._parse_price. -/
def nbsp : Char := '\u00A0'

/-- Parser._parse_price (src/parser.py lines 23-35): empty input fails;
non-breaking spaces are replaced by plain spaces; the first run of
digits, commas and dots is extracted; commas are stripped; the result is
converted by float(), with conversion failure yielding absent. -/
def parse_price (raw : List Char) : Option ℚ :=
  if raw = [] then none
  else
    let cleaned := raw.map (fun c => if c == nbsp then ' ' else c)
    match firstRun isPriceChar cleaned with
    | none => none
    | some run => pyFloat (run.filter (fun c => c != ','))

/-- Parser._parse_reviews (src/parser.py lines 56-66): first run of
digits and commas, commas stripped, parsed as an integer; int() on an
all-comma run (empty after stripping) raises ValueError, giving absent. -/
def parse_reviews (raw : List Char) : Option ℤ :=
  if raw = [] then none
  else
    match firstRun (fun c => c.isDigit || c == ',') raw with
    | none => none
    | some run =>
      let num := run.filter (fun c => c != ',')
      if num = [] then none else some (digitsToNat num : ℤ)

/-- Case-insensitive match of a literal lowercase pattern against the
start of a text, as the re.I flag compares letters. -/
def matchCI : List Char → List Char → Bool
  | [], _ => true
  | _ :: _, [] => false
  | p :: ps, c :: cs => c.toLower == p && matchCI ps cs

/-- Continuation of the rating regex after the captured number: optional
whitespace, the literal "out of" case-insensitively, optional whitespace,
then the digit 5.  The whitespace runs are deterministic because the
following literals are not whitespace. -/
def tailMatchOutOf5 (l : List Char) : Bool :=
  let l1 := l.dropWhile isWs
  if matchCI ("out of".toList) l1 then
    match (l1.drop 6).dropWhile isWs with
    | '5' :: _ => true
    | _ => false
  else false

/-- Search for the primary rating pattern: a number (digits with at most
one decimal digit) followed by "out of 5", case-insensitively.  Mirrors
the backtracking regex search: at each starting digit the maximal digit
run is tried with the optional fraction first, then without it; a
shortened digit run can never match because the continuation cannot start
with a digit, so the search then advances one character. -/
def searchOutOf5 : List Char → Option (List Char)
  | [] => none
  | c :: cs =>
    if c.isDigit then
      let ds := c :: cs.takeWhile Char.isDigit
      let rest := cs.dropWhile Char.isDigit
      match rest with
      | '.' :: d :: rest2 =>
        if d.isDigit then
          if tailMatchOutOf5 rest2 then some (ds ++ ['.', d])
          else if tailMatchOutOf5 rest then some ds
          else searchOutOf5 cs
        else if tailMatchOutOf5 rest then some ds else searchOutOf5 cs
      | _ => if tailMatchOutOf5 rest then some ds else searchOutOf5 cs
    else searchOutOf5 cs

/-- Fallback search of the rating parser: the first number anywhere in
the text, digits with at most one captured decimal digit. -/
def searchNum : List Char → Option (List Char)
  | [] => none
  | c :: cs =>
    if c.isDigit then
      let ds := c :: cs.takeWhile Char.isDigit
      match cs.dropWhile Char.isDigit with
      | '.' :: d :: _ => if d.isDigit then some (ds ++ ['.', d]) else some ds
      | _ => some ds
    else searchNum cs

/-- Rounding of a rational to one decimal place as Python round(x, 1)
behaves on these values: ties go to the even multiple.  Every value the
rating parser rounds is already a multiple of one tenth, so the tie case
never arises. -/
def roundHalfEven (q : ℚ) : ℤ :=
  let f := ⌊q⌋
  let r := q - f
  if r < 1 / 2 then f
  else if 1 / 2 < r then f + 1
  else if 2 ∣ f then f else f + 1

/-- round(x, 1): round to the nearest multiple of one tenth. -/
def round1 (q : ℚ) : ℚ :=
  ((roundHalfEven (q * 10) : ℤ) : ℚ) / 10

/-- Parser._parse_rating (src/parser.py lines 37-54): empty input fails;
the primary pattern number-out-of-5 is searched case-insensitively; if
absent, the first number anywhere is used; the captured number (always a
valid float, so the ValueError branches are dead) is rounded to one
decimal place. -/
def parse_rating (raw : List Char) : Option ℚ :=
  if raw = [] then none
  else
    match searchOutOf5 raw with
    | some s => some (round1 (ratOfNumString s))
    | none =>
      match searchNum raw with
      | some s => some (round1 (ratOfNumString s))
      | none => none

/-- Truthiness of an optional string, as Python tests optional text values:
false for absent and for the empty string. -/
def otruthy : Option (List Char) → Bool
  | none => false
  | some s => !s.isEmpty

/-- Inputs of Parser.get_price (src/parser.py lines 163-203) for one grid
item: the text of the first off-screen accessible price node (none when
the node is absent or its text is null), presence of a price container,
the texts of its whole and fraction sub-nodes, and the item's full inner
text for the currency-sigil fallback. -/
structure PriceItem where
  aok_offscreen : Option (List Char)
  a_price : Bool
  price_whole : Option (List Char)
  price_fraction : Option (List Char)
  inner_text : List Char
deriving DecidableEq

/-- Digits of the whole part: the first run of digits and commas in the
whole-node text, with the commas stripped; none when the node is absent,
its text is empty, or no such run exists. -/
def wNum (whole : Option (List Char)) : Option (List Char) :=
  match whole with
  | none => none
  | some s =>
    if s.isEmpty then none
    else (firstRun (fun c => c.isDigit || c == ',') s).map (List.filter (fun c => c != ','))

/-- First one or two digits of the fraction-node text, as the greedy
bounded-repeat digit pattern captures them. -/
def firstDigits12 : List Char → Option (List Char)
  | [] => none
  | c :: cs =>
    if c.isDigit then some (c :: (cs.takeWhile Char.isDigit).take 1)
    else firstDigits12 cs

/-- Digits captured from the fraction node; none when the node is absent,
empty, or has no digit. -/
def fNum (frac : Option (List Char)) : Option (List Char) :=
  match frac with
  | none => none
  | some s => if s.isEmpty then none else firstDigits12 s

/-- Composed whole-and-fraction stage of Parser.get_price (src/parser.py
lines 176-196): runs only when the whole or fraction node has text; with
both parts the price is float of whole-dot-fraction, with only a whole
part it is float of the whole digits; otherwise the stage yields nothing
and the routine falls through to the text fallback. -/
def wfStage (whole frac : Option (List Char)) : Option ℚ :=
  if otruthy whole || otruthy frac then
    let w := wNum whole
    let f := fNum frac
    if otruthy w && otruthy f then
      match w, f with
      | some ws, some fs => pyFloat (ws ++ '.' :: fs)
      | _, _ => none
    else if otruthy w then
      match w with
      | some ws => pyFloat ws
      | none => none
    else none
  else none

/-- Leftmost occurrence of a dollar sign immediately followed by at least
one digit, comma or dot; yields the maximal run after the sign, the first
capture group of the fallback price regex. -/
def findDollar : List Char → Option (List Char)
  | [] => none
  | '$' :: c :: cs =>
    if isPriceChar c then some (c :: cs.takeWhile isPriceChar)
    else findDollar (c :: cs)
  | _ :: cs => findDollar cs

/-- Currency-sigil fallback of Parser.get_price (src/parser.py lines
197-203): normalize the item's inner text, search for a dollar sign
followed by a numeric run, and parse that run as a price. -/
def textFallback (t : List Char) : Option ℚ :=
  match findDollar (normalize_text (some t)) with
  | some run => parse_price run
  | none => none

/-- Parser.get_price (src/parser.py lines 163-203): the off-screen
accessible text is parsed first; failing that, the composed
whole-and-fraction stage runs when the price container is present;
failing that, the currency-sigil fallback scans the inner text. -/
def get_price (it : PriceItem) : Option ℚ :=
  match (match it.aok_offscreen with
         | some raw => parse_price (normalize_text (some raw))
         | none => none) with
  | some v => some v
  | none =>
    match (if it.a_price then wfStage it.price_whole it.price_fraction else none) with
    | some v => some v
    | none => textFallback it.inner_text

/-- ProductRecord as built by Parser.extract (src/parser.py lines
153-161): the empty name stands for the null produced by name-or-None,
and consumers only ever test its truthiness. -/
structure Record where
  name : List Char
  price : Option ℚ
  original_price : Option ℚ
  rating : Option ℚ
  reviews : Option ℤ
  url : List Char
  item_type : List Char
deriving DecidableEq

/-- First candidate text with truthy content, as the ordered selector
loops of Parser.extract break on the first truthy value; an entry is none
when the selector matches nothing or the queried text is null. -/
def firstTruthy : List (Option (List Char)) → Option (List Char)
  | [] => none
  | c :: cs => if otruthy c then c else firstTruthy cs

/-- Name resolution of Parser.extract (src/parser.py lines 91-103): the
first selector whose normalized text is non-empty wins; otherwise the
name stays empty. -/
def extract_name : List (Option (List Char)) → List Char
  | [] => []
  | c :: cs =>
    match c with
    | none => extract_name cs
    | some t =>
      let n := normalize_text (some t)
      if n.isEmpty then extract_name cs else n

/-- Test for an absolute href, as str.startswith checks the http scheme
in src/parser.py line 82. -/
def hasHttpScheme (s : List Char) : Bool :=
  match s with
  | 'h' :: 't' :: 't' :: 'p' :: _ => true
  | _ => false

/-- Resolution of an href against the parser's base URL (src/parser.py
lines 82-85): absolute hrefs pass through, relative hrefs are prefixed. -/
def resolve_url (base href : List Char) : List Char :=
  if hasHttpScheme href then href else base ++ href

/-- Trailing-slash strip applied to the base URL in the Parser
constructor (src/parser.py line 15). -/
def rstripSlashes (s : List Char) : List Char :=
  (s.reverse.dropWhile (fun c => c == '/')).reverse

/-- Inputs of Parser.extract for one grid item: the href produced by each
URL selector strategy (none when the anchor is absent or carries no
href), the texts of the name, original-price and review-count selector
strategies, the effective aria-label-or-text of each rating strategy, the
price sub-structure, and the sponsorship test. -/
structure Item where
  url_hrefs : List (Option (List Char))
  name_texts : List (Option (List Char))
  priceItem : PriceItem
  orig_texts : List (Option (List Char))
  rating_raws : List (Option (List Char))
  review_texts : List (Option (List Char))
  sponsored : Bool
deriving DecidableEq

/-- Parser.extract (src/parser.py lines 68-161): fails (raises
ElementNotFound, modelled as none) exactly when no URL strategy yields a
truthy href; every other field degrades to absent or empty and the
record is still produced. -/
def extract (base : List Char) (it : Item) : Option Record :=
  match firstTruthy it.url_hrefs with
  | none => none
  | some href =>
    some
      { name := extract_name it.name_texts
        price := get_price it.priceItem
        original_price := parse_price (normalize_text (firstTruthy it.orig_texts))
        rating := parse_rating (normalize_text (firstTruthy it.rating_raws))
        reviews := parse_reviews (normalize_text (firstTruthy it.review_texts))
        url := resolve_url base href
        item_type := if it.sponsored then "Sponsored".toList else "Organic".toList }

/-- DataHandler.validate_record (src/data_handler.py lines 19-21): both
required fields, name and url, must be truthy. -/
def validate_record (r : Record) : Bool :=
  !r.name.isEmpty && !r.url.isEmpty

/-- Outcome of extracting one revealed item in the scrape loop
(src/main.py lines 107-116): ElementNotFound (skip the item), a
closed-context error (stop the page), any other driver error (skip the
item), or a record. -/
inductive ItemOutcome where
  | notFound : ItemOutcome
  | ctxClosed : ItemOutcome
  | otherErr : ItemOutcome
  | ok : Record → ItemOutcome
deriving DecidableEq

/-- Count of accepted records with a truthy name, as computed at
src/main.py lines 87 and 125. -/
def namedCount (rows : List Record) : Nat :=
  (rows.filter (fun r => !r.name.isEmpty)).length

/-- Per-item processing of one page (src/main.py lines 105-123): failures
skip the item or stop the page; a record is validated, deduplicated
against the seen-URL set and appended, the set being extended with its
url.  The wall-clock timestamp DataHandler.add_record stamps on the
accepted record and the debug HTML dump are external effects no control
flow reads, and are not modelled. -/
def processItems (rows : List Record) (seen : List (List Char)) :
    List ItemOutcome → List Record
  | [] => rows
  | o :: os =>
    match o with
    | ItemOutcome.notFound => processItems rows seen os
    | ItemOutcome.otherErr => processItems rows seen os
    | ItemOutcome.ctxClosed => rows
    | ItemOutcome.ok r =>
      if validate_record r then
        if r.url ∈ seen then processItems rows seen os
        else processItems (rows ++ [r]) (r.url :: seen) os
      else processItems rows seen os

/-- Environment of one page of the scrape loop: whether navigation
succeeded within the retry budget, and the extraction outcome of each
item handle revealed after the scroll-convergence loop. -/
structure PageInput where
  navOk : Bool
  items : List ItemOutcome
deriving DecidableEq

/-- Page target count (src/main.py line 87): page 1 targets 50 items,
later pages target min of 50 and 100 minus the named count so far. -/
def pageTarget (pg : Nat) (rows : List Record) : Int :=
  if pg = 1 then 50 else min 50 (100 - (namedCount rows : Int))

/-- Python list slicing up to a possibly negative stop, as
items-sliced-to-target behaves (src/main.py line 105). -/
def pySlice (t : Int) (items : List ItemOutcome) : List ItemOutcome :=
  if 0 ≤ t then items.take t.toNat else items.take (items.length - t.natAbs)

/-- Page loop of scrape (src/main.py lines 56-127): a failed navigation
skips the page; a page with no revealed items ends the run; otherwise up
to the target count of items is processed against the seen-URL set
rebuilt from the accepted rows, and the run stops once 100 named records
have accumulated. -/
def runPages : List PageInput → Nat → List Record → List Record
  | [], _, rows => rows
  | p :: ps, pg, rows =>
    if p.navOk = false then runPages ps (pg + 1) rows
    else if p.items = [] then rows
    else
      let seen := (rows.filter (fun r => !r.url.isEmpty)).map (fun r => r.url)
      let rows2 := processItems rows seen (pySlice (pageTarget pg rows) p.items)
      if 100 ≤ namedCount rows2 then rows2 else runPages ps (pg + 1) rows2

/-- A full run of scrape: at most max_pages = 3 pages (src/config.py
line 15), starting from page 1 with an empty dataset. -/
def scrape_run (pages : List PageInput) : List Record :=
  runPages (pages.take 3) 1 []

/-- Synthetic page driver for BrowserManager.scroll_to_bottom: whether
the mouse-wheel call succeeds at each step, and the scroll position,
document height and viewport height queried at each step (none when the
query raises). -/
structure ScrollEnv where
  wheelOk : Nat → Bool
  query : Nat → Option (Int × Int × Int)

/-- One bounded pass of the scroll loop of
BrowserManager.scroll_to_bottom (src/browser_manager.py lines 70-98),
returning the 1-based index of the step at which the loop stops (or the
index of the last completed step when the 120-step range is exhausted or
the wheel call fails before the step's queries). -/
def scrollLoop (env : ScrollEnv) : Nat → Nat → Int → Nat → Nat
  | 0, i, _, _ => i - 1
  | fuel + 1, i, last, stable =>
    if env.wheelOk i = false then i - 1
    else
      match env.query i with
      | none => i
      | some (y, h, ih) =>
        let st := if y = last then stable + 1 else 0
        if h ≤ y + ih + 5 then i
        else if 3 ≤ st then i
        else scrollLoop env fuel (i + 1) (if y = last then last else y) st

/-- The scroll loop as scroll_to_bottom runs it: 120 steps of fuel,
starting at step 1 with sentinel position -1 and a zero stall count. -/
def scrollResult (env : ScrollEnv) : Nat :=
  scrollLoop env 120 1 (-1) 0

/-- Induction helper matching the two-element view used by collapse and
canonB. -/
def twoStepInd {motive : List Char → Prop} (h0 : motive []) (h1 : ∀ a, motive [a])
    (h2 : ∀ a b rest, motive (b :: rest) → motive (a :: b :: rest)) : ∀ l, motive l
  | [] => h0
  | [a] => h1 a
  | a :: b :: rest => h2 a b rest (twoStepInd h0 h1 h2 (b :: rest))

/-- Canonical whitespace shape: every whitespace character is a plain
space and no two adjacent characters are both whitespace.  This is the
shape of collapse output, and exactly the lists collapse leaves fixed. -/
def canonB : List Char → Bool
  | [] => true
  | [a] => !isWs a || a == ' '
  | a :: b :: rest => (!isWs a || a == ' ') && !(isWs a && isWs b) && canonB (b :: rest)


/-- Helper: evaluate the exact rational value of a numeral string once its
integer part, fraction part and fraction length have been computed at the
string level. -/
theorem ratOfNumString_val (s : List Char) (a b n : ℕ)
    (h3 : digitsToNat (s.takeWhile (fun c => c != '.')) = a)
    (h4 : digitsToNat ((s.dropWhile (fun c => c != '.')).drop 1) = b)
    (h5 : ((s.dropWhile (fun c => c != '.')).drop 1).length = n) :
    ratOfNumString s = (a : ℚ) + (b : ℚ) / 10 ^ n := by
  simp only [ratOfNumString]
  rw [h3, h4, h5]

/-- roundHalfEven is the identity on integers. -/
theorem roundHalfEven_int (m : ℤ) : roundHalfEven (m : ℚ) = m := by
  simp [roundHalfEven]

/-- round1 evaluated on a value known to be an integer number of tenths. -/
theorem round1_of_mul10 (q : ℚ) (m : ℤ) (h : q * 10 = (m : ℚ)) :
    round1 q = (m : ℚ) / 10 := by
  simp only [round1, h, roundHalfEven_int]

/-- Head shape of collapse on a non-empty list: the first output
character is the input head, turned into a space when it is whitespace. -/
theorem collapse_head (rest : List Char) :
    ∀ b, ∃ tl, collapse (b :: rest) = (if isWs b then ' ' else b) :: tl := by
  induction rest with
  | nil => intro b; exact ⟨[], by cases h : isWs b <;> simp [collapse, h]⟩
  | cons r rs ih =>
    intro b
    by_cases hb : isWs b = true
    · by_cases hr : isWs r = true
      · obtain ⟨tl, htl⟩ := ih r
        refine ⟨tl, ?_⟩
        have h1 : collapse (b :: r :: rs) = collapse (r :: rs) := by
          simp [collapse, hb, hr]
        rw [h1, htl]
        simp [hr, hb]
      · exact ⟨collapse (r :: rs), by simp [collapse, hb, hr]⟩
    · exact ⟨collapse (r :: rs), by
        simp only [Bool.not_eq_true] at hb
        simp [collapse, hb]⟩

/-- The first character of a canonical cons is a space or not whitespace. -/
theorem canonB_head (a : Char) (l : List Char) (h : canonB (a :: l) = true) :
    (!isWs a || a == ' ') = true := by
  cases l with
  | nil => simpa only [canonB] using h
  | cons b bs =>
    simp only [canonB, Bool.and_assoc, Bool.and_eq_true] at h
    exact h.1

/-- Canonical shape is preserved by dropping the head. -/
theorem canonB_tail (a : Char) (l : List Char) (h : canonB (a :: l) = true) :
    canonB l = true := by
  cases l with
  | nil => rfl
  | cons b bs =>
    simp only [canonB, Bool.and_assoc, Bool.and_eq_true] at h
    exact h.2.2

/-- A canonical head that is whitespace is the space character. -/
theorem canonB_head_space (a : Char) (l : List Char) (h : canonB (a :: l) = true)
    (ha : isWs a = true) : a = ' ' := by
  have h1 := canonB_head a l h
  cases hv : (a == ' ') with
  | true => exact eq_of_beq hv
  | false => rw [ha, hv] at h1; exact absurd h1 (by decide)

/-- Output of collapse is canonical. -/
theorem canonB_collapse : ∀ l, canonB (collapse l) = true := by
  intro l
  induction l using twoStepInd with
  | h0 => rfl
  | h1 a =>
    by_cases ha : isWs a = true
    · have h1 : collapse [a] = [' '] := by simp [collapse, ha]
      rw [h1]; decide
    · have h1 : collapse [a] = [a] := by simp [collapse, ha]
      rw [h1]
      simp only [canonB, ha]
      simp
  | h2 a b rest ih =>
    by_cases hab : (isWs a && isWs b) = true
    · have h1 : collapse (a :: b :: rest) = collapse (b :: rest) := by
        simp [collapse, hab]
      rw [h1]; exact ih
    · have h1 : collapse (a :: b :: rest)
          = (if isWs a then ' ' else a) :: collapse (b :: rest) := by
        simp [collapse, hab]
      obtain ⟨tl, htl⟩ := collapse_head rest b
      rw [h1, htl]
      rw [htl] at ih
      by_cases ha : isWs a = true
      · have hb : isWs b = false := by
          cases hbv : isWs b
          · rfl
          · rw [ha, hbv] at hab; exact absurd rfl hab
        have hx : (if isWs a then ' ' else a) = ' ' := by simp [ha]
        have hy : (if isWs b then ' ' else b) = b := by simp [hb]
        rw [hx, hy]
        rw [hy] at ih
        simp only [canonB, Bool.and_assoc, Bool.and_eq_true]
        exact ⟨by decide, by simp [hb], ih⟩
      · have hx : (if isWs a then ' ' else a) = a := by simp [ha]
        rw [hx]
        simp only [canonB, Bool.and_assoc, Bool.and_eq_true]
        exact ⟨by simp [ha], by simp [ha], ih⟩

/-- Collapse leaves canonical lists unchanged. -/
theorem collapse_fix : ∀ l, canonB l = true → collapse l = l := by
  intro l
  induction l using twoStepInd with
  | h0 => intro _; rfl
  | h1 a =>
    intro h
    by_cases ha : isWs a = true
    · have ha2 : a = ' ' := canonB_head_space a [] h ha
      simp [collapse, ha, ha2]
    · simp [collapse, ha]
  | h2 a b rest ih =>
    intro h
    have h1 := canonB_head a (b :: rest) h
    have h3 := canonB_tail a (b :: rest) h
    have h2 : (!(isWs a && isWs b)) = true := by
      simp only [canonB, Bool.and_assoc, Bool.and_eq_true] at h
      exact h.2.1
    have hab : (isWs a && isWs b) = false := by
      cases hv : (isWs a && isWs b)
      · rfl
      · rw [hv] at h2; exact absurd h2 (by decide)
    have hx : (if isWs a then ' ' else a) = a := by
      by_cases ha : isWs a = true
      · rw [canonB_head_space a (b :: rest) h ha]; simp [ha]
      · simp [ha]
    have hc : collapse (a :: b :: rest)
        = (if isWs a then ' ' else a) :: collapse (b :: rest) := by
      simp [collapse, hab]
    rw [hc, hx, ih h3]

/-- Canonical shape is preserved by dropWhile. -/
theorem canonB_dropWhile : ∀ l, canonB l = true → canonB (l.dropWhile isWs) = true := by
  intro l
  induction l with
  | nil => intro _; rfl
  | cons a as ih =>
    intro h
    by_cases ha : isWs a = true
    · rw [List.dropWhile_cons, if_pos ha]
      exact ih (canonB_tail a as h)
    · rw [List.dropWhile_cons, if_neg (by simp [ha])]
      exact h

/-- dropTrailWs of a cons is empty or keeps the head. -/
theorem dropTrail_shape (a : Char) (l : List Char) :
    dropTrailWs (a :: l) = [] ∨ dropTrailWs (a :: l) = a :: dropTrailWs l := by
  by_cases hc : (dropTrailWs l = [] && isWs a) = true
  · left; simp only [dropTrailWs]; rw [if_pos hc]
  · right; simp only [dropTrailWs]; rw [if_neg (by simpa using hc)]

/-- Canonical shape is preserved by dropping trailing whitespace. -/
theorem canonB_dropTrail : ∀ l, canonB l = true → canonB (dropTrailWs l) = true := by
  intro l
  induction l with
  | nil => intro _; rfl
  | cons a as ih =>
    intro h
    rcases dropTrail_shape a as with hsh | hsh
    · rw [hsh]; rfl
    · rw [hsh]
      have h2 : canonB (dropTrailWs as) = true := ih (canonB_tail a as h)
      cases hd : dropTrailWs as with
      | nil =>
        have h1 := canonB_head a as h
        simpa only [canonB] using h1
      | cons c r2 =>
        rw [hd] at h2
        cases as with
        | nil => simp [dropTrailWs] at hd
        | cons b bs =>
          rcases dropTrail_shape b bs with hsb | hsb
          · rw [hsb] at hd; exact absurd hd (by simp)
          · rw [hsb] at hd
            injection hd with hcb hr
            subst hcb
            subst hr
            simp only [canonB, Bool.and_assoc, Bool.and_eq_true] at h ⊢
            exact ⟨h.1, h.2.1, h2⟩

/-- dropTrailWs is idempotent. -/
theorem dropTrail_idem : ∀ l, dropTrailWs (dropTrailWs l) = dropTrailWs l := by
  intro l
  induction l with
  | nil => rfl
  | cons a as ih =>
    by_cases hc : (dropTrailWs as = [] && isWs a) = true
    · have h1 : dropTrailWs (a :: as) = [] := by
        simp only [dropTrailWs]; rw [if_pos hc]
      rw [h1]; rfl
    · have h1 : dropTrailWs (a :: as) = a :: dropTrailWs as := by
        simp only [dropTrailWs]; rw [if_neg (by simpa using hc)]
      rw [h1]
      simp only [dropTrailWs]
      rw [ih, if_neg (by simpa using hc)]

/-- The head surviving dropWhile does not satisfy the predicate. -/
theorem dropWhile_head_not :
    ∀ (l : List Char) (c : Char) (cs : List Char),
      List.dropWhile isWs l = c :: cs → isWs c = false := by
  intro l
  induction l with
  | nil => intro c cs h; simp [List.dropWhile] at h
  | cons a as ih =>
    intro c cs h
    by_cases ha : isWs a = true
    · rw [List.dropWhile_cons, if_pos ha] at h
      exact ih c cs h
    · rw [List.dropWhile_cons, if_neg (by simp [ha])] at h
      cases h
      simpa using ha

/-- C9: normalizeText is idempotent: for every string s,
normalizeText(normalizeText(s)) equals normalizeText(s), where
normalizeText collapses every whitespace run to a single space, trims the
result, and maps empty or absent input to the empty string. -/
theorem claim_C9_normalize_idempotent (s : List Char) :
    normalize_text (some (normalize_text (some s))) = normalize_text (some s) := by
  by_cases hs : s = []
  · subst hs; rfl
  · have hnt : normalize_text (some s) = stripWs (collapse s) := by
      simp [normalize_text, hs]
    rw [hnt]
    by_cases ht : stripWs (collapse s) = []
    · rw [ht]; rfl
    · have hnt2 : normalize_text (some (stripWs (collapse s)))
          = stripWs (collapse (stripWs (collapse s))) := by
        simp [normalize_text, ht]
    
      rw [hnt2]
      have hc : canonB (collapse s) = true := canonB_collapse s
      have hW : canonB ((collapse s).dropWhile isWs) = true := canonB_dropWhile _ hc
      have hT : canonB (stripWs (collapse s)) = true := canonB_dropTrail _ hW
      rw [collapse_fix _ hT]
      have htW : stripWs (collapse s) = dropTrailWs ((collapse s).dropWhile isWs) := rfl
      cases hWc : (collapse s).dropWhile isWs with
      | nil =>
        rw [hWc] at htW
        simp only [dropTrailWs] at htW
        exact absurd htW ht
      | cons w ws2 =>
        have hwns : isWs w = false := dropWhile_head_not (collapse s) w ws2 hWc
        rw [hWc] at htW
        rcases dropTrail_shape w ws2 with hdt | hdt
        · rw [hdt] at htW; exact absurd htW ht
        · have ht2 : stripWs (collapse s) = w :: dropTrailWs ws2 := by rw [htW, hdt]
          have hstr : stripWs (stripWs (collapse s))
              = dropTrailWs ((stripWs (collapse s)).dropWhile isWs) := rfl
          rw [hstr, ht2]
          rw [List.dropWhile_cons, if_neg (by simp [hwns])]
          have hid : dropTrailWs (dropTrailWs (w :: ws2)) = dropTrailWs (w :: ws2) :=
            dropTrail_idem _
          rw [hdt] at hid
          exact hid

/-- Truthy validated fields are non-empty lists. -/
theorem validate_fields (r : Record) (h : validate_record r = true) :
    r.name ≠ [] ∧ r.url ≠ [] := by
  simp only [validate_record, Bool.and_eq_true] at h
  constructor
  · cases hn : r.name with
    | nil => rw [hn] at h; exact absurd h.1 (by decide)
    | cons c cs => simp
  · cases hu : r.url with
    | nil => rw [hu] at h; exact absurd h.2 (by decide)
    | cons c cs => simp

/-- One accepted step of processItems, unfolded. -/
theorem processItems_ok_step (rows : List Record) (seen : List (List Char))
    (r : Record) (os : List ItemOutcome) :
    processItems rows seen (ItemOutcome.ok r :: os)
      = if validate_record r then
          (if r.url ∈ seen then processItems rows seen os
           else processItems (rows ++ [r]) (r.url :: seen) os)
        else processItems rows seen os := rfl

/-- Core invariant of the per-page item loop: starting from validated,
url-distinct rows whose urls all lie in the seen set, the loop preserves
validation and pairwise url distinctness. -/
theorem processItems_inv (os : List ItemOutcome) :
    ∀ (rows : List Record) (seen : List (List Char)),
      (∀ r ∈ rows, validate_record r = true) →
      (∀ r ∈ rows, r.url ∈ seen) →
      rows.Pairwise (fun a b => a.url ≠ b.url) →
      (∀ r ∈ processItems rows seen os, validate_record r = true) ∧
      (processItems rows seen os).Pairwise (fun a b => a.url ≠ b.url) := by
  induction os with
  | nil => intro rows seen h1 _ h3; exact ⟨h1, h3⟩
  | cons o os ih =>
    intro rows seen h1 h2 h3
    cases o with
    | notFound => exact ih rows seen h1 h2 h3
    | otherErr => exact ih rows seen h1 h2 h3
    | ctxClosed => exact ⟨h1, h3⟩
    | ok r =>
      rw [processItems_ok_step]
      by_cases hv : validate_record r = true
      · rw [if_pos hv]
        by_cases hm : r.url ∈ seen
        · rw [if_pos hm]; exact ih rows seen h1 h2 h3
        · rw [if_neg hm]
          apply ih
          · intro x hx
            rcases List.mem_append.mp hx with hx | hx
            · exact h1 x hx
            · rw [List.mem_singleton.mp hx]; exact hv
          · intro x hx
            rcases List.mem_append.mp hx with hx | hx
            · exact List.mem_cons_of_mem _ (h2 x hx)
            · rw [List.mem_singleton.mp hx]; exact List.mem_cons_self _ _
          · rw [List.pairwise_append]
            refine ⟨h3, List.pairwise_singleton _ _, ?_⟩
            intro a ha b hb
            rw [List.mem_singleton.mp hb]
            intro heq
            exact hm (heq ▸ h2 a ha)
      · rw [if_neg hv]; exact ih rows seen h1 h2 h3

/-- Unfolding of one page of the loop when navigation succeeded and items
were revealed. -/
theorem runPages_page_step (p : PageInput) (ps : List PageInput) (pg : Nat)
    (rows : List Record) (hnav : ¬p.navOk = false) (hit : ¬p.items = []) :
    runPages (p :: ps) pg rows =
      (if 100 ≤ namedCount (processItems rows
            ((rows.filter (fun r => !r.url.isEmpty)).map (fun r => r.url))
            (pySlice (pageTarget pg rows) p.items))
       then processItems rows
            ((rows.filter (fun r => !r.url.isEmpty)).map (fun r => r.url))
            (pySlice (pageTarget pg rows) p.items)
       else runPages ps (pg + 1) (processItems rows
            ((rows.filter (fun r => !r.url.isEmpty)).map (fun r => r.url))
            (pySlice (pageTarget pg rows) p.items))) := by
  rw [runPages, if_neg hnav, if_neg hit]

/-- Run-level invariant: validation and url distinctness of the dataset
are preserved across pages. -/
theorem runPages_inv (ps : List PageInput) :
    ∀ (pg : Nat) (rows : List Record),
      (∀ r ∈ rows, validate_record r = true) →
      rows.Pairwise (fun a b => a.url ≠ b.url) →
      (∀ r ∈ runPages ps pg rows, validate_record r = true) ∧
      (runPages ps pg rows).Pairwise (fun a b => a.url ≠ b.url) := by
  induction ps with
  | nil => intro pg rows h1 h3; exact ⟨h1, h3⟩
  | cons p ps ih =>
    intro pg rows h1 h3
    by_cases hnav : p.navOk = false
    · have hstep : runPages (p :: ps) pg rows = runPages ps (pg + 1) rows := by
        rw [runPages, if_pos hnav]
      rw [hstep]; exact ih _ _ h1 h3
    · by_cases hit : p.items = []
      · have hstep : runPages (p :: ps) pg rows = rows := by
          rw [runPages, if_neg hnav, if_pos hit]
        rw [hstep]; exact ⟨h1, h3⟩
      · have hsub : ∀ r ∈ rows,
            r.url ∈ (rows.filter (fun r => !r.url.isEmpty)).map (fun r => r.url) := by
          intro r hr
          have hu : (!r.url.isEmpty) = true := by
            have hv := h1 r hr
            simp only [validate_record, Bool.and_eq_true] at hv
            exact hv.2
          exact List.mem_map.mpr ⟨r, List.mem_filter.mpr ⟨hr, hu⟩, rfl⟩
        obtain ⟨g1, g3⟩ := processItems_inv (pySlice (pageTarget pg rows) p.items)
          rows _ h1 hsub h3
        rw [runPages_page_step p ps pg rows hnav hit]
        by_cases h100 : 100 ≤ namedCount (processItems rows
            ((rows.filter (fun r => !r.url.isEmpty)).map (fun r => r.url))
            (pySlice (pageTarget pg rows) p.items))
        · rw [if_pos h100]; exact ⟨g1, g3⟩
        · rw [if_neg h100]; exact ih _ _ g1 g3

/-- C1: for every run, no two records in the final dataset share a url:
before a validated record is appended its url is tested against the set
of urls already accepted across all pages, and records whose url is
already present are dropped without modifying the dataset. -/
theorem claim_C1_dedup_invariant (pages : List PageInput) :
    (scrape_run pages).Pairwise (fun a b => a.url ≠ b.url) ∧
    (∀ (rows : List Record) (seen : List (List Char)) (r : Record)
        (os : List ItemOutcome), r.url ∈ seen →
        processItems rows seen (ItemOutcome.ok r :: os) = processItems rows seen os) := by
  constructor
  · exact (runPages_inv (pages.take 3) 1 []
      (fun r hr => absurd hr (List.not_mem_nil r)) List.Pairwise.nil).2
  · intro rows seen r os hm
    rw [processItems_ok_step]
    by_cases hv : validate_record r = true
    · rw [if_pos hv, if_pos hm]
    · rw [if_neg hv]

/-- C1 witness: the dedup conclusion instantiated at a concrete run in
which the same url is delivered twice. -/
theorem claim_C1_dedup_invariant_witness :
    processItems [] ["u".toList]
        (ItemOutcome.ok ⟨"n".toList, none, none, none, none, "u".toList, "Organic".toList⟩ :: [])
      = processItems [] ["u".toList] [] :=
  (claim_C1_dedup_invariant []).2 [] ["u".toList]
    ⟨"n".toList, none, none, none, none, "u".toList, "Organic".toList⟩ [] (by decide)

/-- C2: every record in the final dataset has a non-empty name and a
non-empty url: the validation gate (both fields truthy) precedes
deduplication and timestamping, and a record failing it is never
appended. -/
theorem claim_C2_validation_invariant (pages : List PageInput) :
    (∀ r ∈ scrape_run pages, r.name ≠ [] ∧ r.url ≠ []) ∧
    (∀ (rows : List Record) (seen : List (List Char)) (r : Record)
        (os : List ItemOutcome), validate_record r = false →
        processItems rows seen (ItemOutcome.ok r :: os) = processItems rows seen os) := by
  constructor
  · intro r hr
    exact validate_fields r ((runPages_inv (pages.take 3) 1 []
      (fun r hr => absurd hr (List.not_mem_nil r)) List.Pairwise.nil).1 r hr)
  · intro rows seen r os hv
    rw [processItems_ok_step, if_neg (by simp [hv])]

/-- C2 witness: the invariants instantiated on a concrete run that
delivers one valid and one invalid record. -/
theorem claim_C2_validation_invariant_witness :
    (⟨"n".toList, none, none, none, none, "u".toList, "Organic".toList⟩ : Record).name ≠ []
      ∧ (⟨"n".toList, none, none, none, none, "u".toList, "Organic".toList⟩ : Record).url ≠ [] :=
  (claim_C2_validation_invariant
      [⟨true, [ItemOutcome.ok ⟨"n".toList, none, none, none, none, "u".toList, "Organic".toList⟩,
               ItemOutcome.ok ⟨[], none, none, none, none, "u2".toList, "Organic".toList⟩]⟩]).1
    ⟨"n".toList, none, none, none, none, "u".toList, "Organic".toList⟩ (by decide)

/-- The item loop only appends records. -/
theorem processItems_append_only (os : List ItemOutcome) :
    ∀ (rows : List Record) (seen : List (List Char)),
      ∃ t, processItems rows seen os = rows ++ t := by
  induction os with
  | nil => intro rows seen; exact ⟨[], (List.append_nil rows).symm⟩
  | cons o os ih =>
    intro rows seen
    cases o with
    | notFound => exact ih rows seen
    | otherErr => exact ih rows seen
    | ctxClosed => exact ⟨[], (List.append_nil rows).symm⟩
    | ok r =>
      rw [processItems_ok_step]
      by_cases hv : validate_record r = true
      · rw [if_pos hv]
        by_cases hm : r.url ∈ seen
        · rw [if_pos hm]; exact ih rows seen
        · rw [if_neg hm]
          obtain ⟨t, ht⟩ := ih (rows ++ [r]) (r.url :: seen)
          exact ⟨[r] ++ t, by rw [ht, List.append_assoc]⟩
      · rw [if_neg hv]; exact ih rows seen

/-- The page loop only appends records. -/
theorem runPages_append_only (ps : List PageInput) :
    ∀ (pg : Nat) (rows : List Record), ∃ t, runPages ps pg rows = rows ++ t := by
  induction ps with
  | nil => intro pg rows; exact ⟨[], (List.append_nil rows).symm⟩
  | cons p ps ih =>
    intro pg rows
    by_cases hnav : p.navOk = false
    · rw [runPages, if_pos hnav]; exact ih _ _
    · by_cases hit : p.items = []
      · rw [runPages, if_neg hnav, if_pos hit]
        exact ⟨[], (List.append_nil rows).symm⟩
      · rw [runPages_page_step p ps pg rows hnav hit]
        obtain ⟨t1, ht1⟩ := processItems_append_only
          (pySlice (pageTarget pg rows) p.items) rows
          ((rows.filter (fun r => !r.url.isEmpty)).map (fun r => r.url))
        by_cases h100 : 100 ≤ namedCount (processItems rows
            ((rows.filter (fun r => !r.url.isEmpty)).map (fun r => r.url))
            (pySlice (pageTarget pg rows) p.items))
        · rw [if_pos h100]; exact ⟨t1, ht1⟩
        · rw [if_neg h100]
          obtain ⟨t2, ht2⟩ := ih (pg + 1) (processItems rows
            ((rows.filter (fun r => !r.url.isEmpty)).map (fun r => r.url))
            (pySlice (pageTarget pg rows) p.items))
          exact ⟨t1 ++ t2, by rw [ht2, ht1, List.append_assoc]⟩

/-- Appending one record raises the named count by at most one. -/
theorem namedCount_snoc (rows : List Record) (r : Record) :
    namedCount (rows ++ [r]) ≤ namedCount rows + 1 := by
  simp only [namedCount, List.filter_append, List.length_append]
  cases hv : (!r.name.isEmpty) <;> simp [List.filter, hv]

/-- The item loop adds at most one named record per processed item. -/
theorem processItems_named_le (os : List ItemOutcome) :
    ∀ (rows : List Record) (seen : List (List Char)),
      namedCount (processItems rows seen os) ≤ namedCount rows + os.length := by
  induction os with
  | nil => intro rows seen; simp [processItems]
  | cons o os ih =>
    intro rows seen
    cases o with
    | notFound =>
      rw [show processItems rows seen (ItemOutcome.notFound :: os)
            = processItems rows seen os from rfl, List.length_cons]
      have := ih rows seen
      omega
    | otherErr =>
      rw [show processItems rows seen (ItemOutcome.otherErr :: os)
            = processItems rows seen os from rfl, List.length_cons]
      have := ih rows seen
      omega
    | ctxClosed =>
      rw [show processItems rows seen (ItemOutcome.ctxClosed :: os) = rows from rfl,
          List.length_cons]
      omega
    | ok r =>
      rw [processItems_ok_step, List.length_cons]
      by_cases hv : validate_record r = true
      · rw [if_pos hv]
        by_cases hm : r.url ∈ seen
        · rw [if_pos hm]
          have := ih rows seen
          omega
        · rw [if_neg hm]
          have h1 := ih (rows ++ [r]) (r.url :: seen)
          have h2 := namedCount_snoc rows r
          omega
      · rw [if_neg hv]
        have := ih rows seen
        omega

/-- A slice with non-negative stop has at most that many elements. -/
theorem pySlice_len (t : Int) (items : List ItemOutcome) (h : 0 ≤ t) :
    (pySlice t items).length ≤ t.toNat := by
  simp only [pySlice, if_pos h]
  calc (items.take t.toNat).length = min t.toNat items.length := List.length_take _ _
    _ ≤ t.toNat := Nat.min_le_left _ _

/-- Budget bound for pages after the first: entering any later page with
at most 99 named records, the run never exceeds 100 named records. -/
theorem runPages_bound (ps : List PageInput) :
    ∀ (pg : Nat) (rows : List Record), 2 ≤ pg → namedCount rows ≤ 99 →
      namedCount (runPages ps pg rows) ≤ 100 := by
  induction ps with
  | nil => intro pg rows _ h99; simpa [runPages] using by omega
  | cons p ps ih =>
    intro pg rows hpg h99
    by_cases hnav : p.navOk = false
    · rw [runPages, if_pos hnav]; exact ih _ _ (by omega) h99
    · by_cases hit : p.items = []
      · rw [runPages, if_neg hnav, if_pos hit]; omega
      · rw [runPages_page_step p ps pg rows hnav hit]
        have htar : pageTarget pg rows = min 50 (100 - (namedCount rows : Int)) := by
          simp only [pageTarget]
          rw [if_neg (by omega)]
        have hpos : (0 : Int) ≤ pageTarget pg rows := by rw [htar]; omega
        have hlen : (pySlice (pageTarget pg rows) p.items).length
            ≤ (pageTarget pg rows).toNat := pySlice_len _ _ hpos
        have htoNat : (pageTarget pg rows).toNat ≤ 100 - namedCount rows := by
          rw [htar]; omega
        have hb : namedCount (processItems rows
            ((rows.filter (fun r => !r.url.isEmpty)).map (fun r => r.url))
            (pySlice (pageTarget pg rows) p.items)) ≤ 100 := by
          have := processItems_named_le (pySlice (pageTarget pg rows) p.items)
            rows ((rows.filter (fun r => !r.url.isEmpty)).map (fun r => r.url))
          omega
        by_cases h100 : 100 ≤ namedCount (processItems rows
            ((rows.filter (fun r => !r.url.isEmpty)).map (fun r => r.url))
            (pySlice (pageTarget pg rows) p.items))
        · rw [if_pos h100]; exact hb
        · rw [if_neg h100]; exact ih _ _ (by omega) (by omega)

/-- Budget bound for a whole run started on page 1 with no rows. -/
theorem runPages_start_bound (ps : List PageInput) :
    namedCount (runPages ps 1 []) ≤ 100 := by
  cases ps with
  | nil => simp [runPages, namedCount]
  | cons p ps =>
    by_cases hnav : p.navOk = false
    · rw [runPages, if_pos hnav]
      exact runPages_bound ps 2 [] (by omega) (by simp [namedCount])
    · by_cases hit : p.items = []
      · rw [runPages, if_neg hnav, if_pos hit]; simp [namedCount]
      · rw [runPages_page_step p ps 1 [] hnav hit]
        have htar : pageTarget 1 [] = 50 := by simp [pageTarget]
        have hlen : (pySlice (pageTarget 1 []) p.items).length ≤ 50 := by
          have := pySlice_len (pageTarget 1 []) p.items (by rw [htar]; omega)
          rw [htar] at this
          simpa using this
        have hb : namedCount (processItems []
            (([] : List Record).filter (fun r => !r.url.isEmpty) |>.map (fun r => r.url))
            (pySlice (pageTarget 1 []) p.items)) ≤ 50 := by
          have := processItems_named_le (pySlice (pageTarget 1 []) p.items)
            [] (([] : List Record).filter (fun r => !r.url.isEmpty) |>.map (fun r => r.url))
          have hz : namedCount ([] : List Record) = 0 := by simp [namedCount]
          omega
        by_cases h100 : 100 ≤ namedCount (processItems []
            (([] : List Record).filter (fun r => !r.url.isEmpty) |>.map (fun r => r.url))
            (pySlice (pageTarget 1 []) p.items))
        · rw [if_pos h100]; omega
        · rw [if_neg h100]
          exact runPages_bound ps 2 _ (by omega) (by omega)

/-- C3: the count of accepted records with a non-empty name never exceeds
100 at any point of a run: the dataset is append-only (so every
intermediate dataset is a prefix of the final one and the bound on the
final dataset bounds every point), page 1 processes at most 50 items,
later pages at most min(50, 100 minus the named count so far), and once
the count reaches 100 after a page no further page is processed. -/
theorem claim_C3_budget_invariant (pages : List PageInput) :
    namedCount (scrape_run pages) ≤ 100 ∧
    (∀ (rows : List Record) (seen : List (List Char)) (os : List ItemOutcome),
        ∃ t, processItems rows seen os = rows ++ t) ∧
    (∀ (ps : List PageInput) (pg : Nat) (rows : List Record),
        ∃ t, runPages ps pg rows = rows ++ t) := by
  refine ⟨runPages_start_bound (pages.take 3), ?_, ?_⟩
  · intro rows seen os; exact processItems_append_only os rows seen
  · intro ps pg rows; exact runPages_append_only ps pg rows

/-- A run search fails when no character of the text is in the class. -/
theorem firstRun_none (p : Char → Bool) :
    ∀ l, (∀ c ∈ l, p c = false) → firstRun p l = none := by
  intro l
  induction l with
  | nil => intro _; rfl
  | cons a as ih =>
    intro h
    have ha := h a (List.mem_cons_self a as)
    simp only [firstRun, ha]
    exact ih (fun c hc => h c (List.mem_cons_of_mem a hc))

/-- C4: parsePrice extracts the first contiguous run of digits, grouping
commas and decimal point from the input (after replacing non-breaking
spaces), strips the commas and converts to a decimal, returning absent
when no run is found or the conversion fails: parsePrice of the string
dollar-1,234.56 is 1234.56, parsePrice of an em-dash is absent, and the
composed whole/fraction path yields 29.99 for whole 29 with fraction 99
and 29.0 when only the whole part is present. -/
theorem claim_C4_parse_price (s : List Char) :
    parse_price ("$1,234.56".toList) = some (1234.56 : ℚ) ∧
    parse_price ("—".toList) = none ∧
    wfStage (some ("29".toList)) (some ("99".toList)) = some (29.99 : ℚ) ∧
    wfStage (some ("29".toList)) none = some (29 : ℚ) ∧
    ((s.map (fun c => if c == nbsp then ' ' else c)).all (fun c => !isPriceChar c) = true →
      parse_price s = none) := by
  refine ⟨?_, by decide, ?_, ?_, ?_⟩
  · have h0 : parse_price ("$1,234.56".toList)
        = some (ratOfNumString ("1234.56".toList)) := rfl
    rw [h0, ratOfNumString_val ("1234.56".toList) 1234 56 2 rfl rfl rfl]
    norm_num
  · have h0 : wfStage (some ("29".toList)) (some ("99".toList))
        = some (ratOfNumString ("29.99".toList)) := rfl
    rw [h0, ratOfNumString_val ("29.99".toList) 29 99 2 rfl rfl rfl]
    norm_num
  · have h0 : wfStage (some ("29".toList)) none
        = some (ratOfNumString ("29".toList)) := rfl
    rw [h0, ratOfNumString_val ("29".toList) 29 0 0 rfl rfl rfl]
    norm_num
  · intro hall
    by_cases hs : s = []
    · rw [hs]; rfl
    · have hnone : firstRun isPriceChar (s.map (fun c => if c == nbsp then ' ' else c))
          = none := by
        apply firstRun_none
        intro c hc
        have := List.all_eq_true.mp hall c hc
        cases hv : isPriceChar c
        · rfl
        · rw [hv] at this; exact absurd this (by decide)
      simp only [parse_price, if_neg hs, hnone]

/-- C4 witness: the no-numeric-run clause discharged on a concrete
all-letter input. -/
theorem claim_C4_parse_price_witness : parse_price ("abc".toList) = none :=
  (claim_C4_parse_price ("abc".toList)).2.2.2.2 (by decide)

/-- C5: parseRating first matches the case-insensitive pattern
number-out-of-5 with at most one decimal digit; without it, it falls back
to the first number anywhere in the text; the result is rounded to one
decimal place and absent or unparseable input yields absent: 4.5 out of 5
stars gives 4.5, 4 stars gives 4.0 through the fallback, no rating and
the empty text give absent. -/
theorem claim_C5_parse_rating :
    parse_rating ("4.5 out of 5 stars".toList) = some (4.5 : ℚ) ∧
    parse_rating ("4 stars".toList) = some (4 : ℚ) ∧
    parse_rating ("no rating".toList) = none ∧
    parse_rating [] = none := by
  refine ⟨?_, ?_, by decide, rfl⟩
  · have h0 : parse_rating ("4.5 out of 5 stars".toList)
        = some (round1 (ratOfNumString ("4.5".toList))) := rfl
    rw [h0, ratOfNumString_val ("4.5".toList) 4 5 1 rfl rfl rfl,
        round1_of_mul10 _ 45 (by norm_num)]
    norm_num
  · have h0 : parse_rating ("4 stars".toList)
        = some (round1 (ratOfNumString ("4".toList))) := rfl
    rw [h0, ratOfNumString_val ("4".toList) 4 0 0 rfl rfl rfl,
        round1_of_mul10 _ 40 (by norm_num)]
    norm_num

/-- The selector fallback chain yields nothing exactly when no candidate
is truthy. -/
theorem firstTruthy_none_iff : ∀ (l : List (Option (List Char))),
    (firstTruthy l = none ↔ ∀ c ∈ l, otruthy c = false) := by
  intro l
  induction l with
  | nil => simp [firstTruthy]
  | cons a as ih =>
    by_cases ha : otruthy a = true
    · have h1 : firstTruthy (a :: as) = a := by simp [firstTruthy, ha]
      rw [h1]
      cases a with
      | none => exact absurd ha (by decide)
      | some s =>
        simp only [List.forall_mem_cons]
        constructor
        · intro h; exact absurd h (by simp)
        · intro h; rw [h.1] at ha; exact absurd ha (by decide)
    · have hf : otruthy a = false := by
        cases hv : otruthy a
        · rfl
        · exact absurd hv ha
      have h1 : firstTruthy (a :: as) = firstTruthy as := by simp [firstTruthy, hf]
      rw [h1, ih]
      simp [List.forall_mem_cons, hf]

/-- C7: per-item extraction raises ElementNotFound (returns no record) if
and only if no URL selector strategy yields a non-empty href; when some
strategy does, a record is always produced (every other field degrades to
absent or empty instead of aborting), and an item whose extraction fails
this way is skipped without affecting the rest of the page. -/
theorem claim_C7_element_not_found (base : List Char) (it : Item) :
    (extract base it = none ↔ ∀ c ∈ it.url_hrefs, otruthy c = false) ∧
    (∀ h ∈ it.url_hrefs, otruthy h = true → ∃ r, extract base it = some r) ∧
    (∀ (rows : List Record) (seen : List (List Char)) (os : List ItemOutcome),
        processItems rows seen (ItemOutcome.notFound :: os)
          = processItems rows seen os) := by
  refine ⟨?_, ?_, fun _ _ _ => rfl⟩
  · constructor
    · intro h
      rw [← firstTruthy_none_iff]
      cases hft : firstTruthy it.url_hrefs with
      | none => rfl
      | some href => simp [extract, hft] at h
    · intro h
      have hft := (firstTruthy_none_iff it.url_hrefs).mpr h
      simp [extract, hft]
  · intro h hm ht
    cases hft : firstTruthy it.url_hrefs with
    | none =>
      have hfa := (firstTruthy_none_iff it.url_hrefs).mp hft h hm
      rw [ht] at hfa
      exact absurd hfa (by decide)
    | some href =>
      cases hx : extract base it with
      | some r => exact ⟨r, rfl⟩
      | none => simp [extract, hft] at hx

/-- C7 witness: extraction succeeds on a concrete item whose first URL
strategy yields an href, all other fields being absent. -/
theorem claim_C7_element_not_found_witness :
    ∃ r, extract []
        ⟨[some ("/dp/x".toList)], [], ⟨none, false, none, none, []⟩, [], [], [], false⟩
      = some r :=
  (claim_C7_element_not_found []
      ⟨[some ("/dp/x".toList)], [], ⟨none, false, none, none, []⟩, [], [], [], false⟩).2.1
    (some ("/dp/x".toList)) (by decide) (by decide)

/-- C10: in the composed whole/fraction stage of price extraction, a
fraction node without a parsable whole part never produces a price: the
stage yields nothing whenever the whole part does not parse to a truthy
digit string, and the routine then falls through to the currency-sigil
text fallback, so a bare fraction is never returned as the price. -/
theorem claim_C10_bare_fraction (it : PriceItem)
    (h1 : it.aok_offscreen = none)
    (h2 : otruthy (wNum it.price_whole) = false) :
    wfStage it.price_whole it.price_fraction = none ∧
    get_price it = textFallback it.inner_text := by
  have hwf : wfStage it.price_whole it.price_fraction = none := by
    by_cases hg : (otruthy it.price_whole || otruthy it.price_fraction) = true
    · simp only [wfStage, if_pos hg, h2]
      simp
    · simp only [wfStage, if_neg hg]
  refine ⟨hwf, ?_⟩
  cases hap : it.a_price
  · simp [get_price, h1, hap]
  · simp [get_price, h1, hap, hwf]

/-- C10 witness: a concrete item carrying only a fraction node falls
through to the text fallback and the whole/fraction stage yields
nothing. -/
theorem claim_C10_bare_fraction_witness :
    wfStage none (some ("99".toList)) = none ∧
    get_price ⟨none, true, none, some ("99".toList), "no price".toList⟩
      = textFallback ("no price".toList) :=
  claim_C10_bare_fraction ⟨none, true, none, some ("99".toList), "no price".toList⟩
    rfl (by decide)

/-- C8 counterexample: a record whose rating text reads 9 out of 5 stars
is extracted with rating 9.0, outside the claimed interval [0.0, 5.0];
the code never clamps the parsed value. -/
theorem claim_C8_rating_interval_cex :
    ((extract ("https://www.amazon.com".toList)
        ⟨[some ("/dp/B0".toList)], [some ("Widget".toList)],
         ⟨none, false, none, none, []⟩, [],
         [some ("9 out of 5 stars".toList)], [], false⟩).map
      (fun r => r.rating)) = some (some (9 : ℚ)) ∧ ¬((9 : ℚ) ≤ 5) := by
  constructor
  · have h0 : ((extract ("https://www.amazon.com".toList)
        ⟨[some ("/dp/B0".toList)], [some ("Widget".toList)],
         ⟨none, false, none, none, []⟩, [],
         [some ("9 out of 5 stars".toList)], [], false⟩).map
      (fun r => r.rating)) = some (some (round1 (ratOfNumString ("9".toList)))) := rfl
    rw [h0, ratOfNumString_val ("9".toList) 9 0 0 rfl rfl rfl,
        round1_of_mul10 _ 90 (by norm_num)]
    norm_num
  · norm_num

/-- Every numeral value the rating parser computes is non-negative. -/
theorem ratOfNumString_nonneg (s : List Char) : 0 ≤ ratOfNumString s := by
  simp only [ratOfNumString]
  positivity

/-- Rounding preserves non-negativity. -/
theorem roundHalfEven_nonneg (q : ℚ) (h : 0 ≤ q) : 0 ≤ roundHalfEven q := by
  have hf : 0 ≤ ⌊q⌋ := Int.floor_nonneg.mpr h
  simp only [roundHalfEven]
  split_ifs <;> omega

/-- Every defined rating is the rounding of some parsed numeral. -/
theorem parse_rating_form (raw : List Char) (q : ℚ) (h : parse_rating raw = some q) :
    ∃ s, q = round1 (ratOfNumString s) := by
  by_cases hr : raw = []
  · rw [hr, show parse_rating [] = none from rfl] at h
    exact absurd h (by simp)
  · simp only [parse_rating, if_neg hr] at h
    cases h1 : searchOutOf5 raw with
    | some s =>
      rw [h1] at h
      exact ⟨s, by injection h with h2; exact h2.symm⟩
    | none =>
      rw [h1] at h
      cases h2 : searchNum raw with
      | some s =>
        rw [h2] at h
        exact ⟨s, by injection h with h3; exact h3.symm⟩
      | none => rw [h2] at h; exact absurd h (by simp)

/-- C8 amended: for every record produced by extraction, the rating field
is either absent or a non-negative decimal expressed with a single
decimal digit of precision (an integer number of tenths); the upper
bound 5.0 of the claimed interval is not enforced by the code, for any
input text fed to parseRating, including the fallback path. -/
theorem claim_C8_rating_precision (raw : List Char) (q : ℚ)
    (h : parse_rating raw = some q) :
    0 ≤ q ∧ ∃ n : ℤ, 0 ≤ n ∧ q = (n : ℚ) / 10 := by
  obtain ⟨s, hq⟩ := parse_rating_form raw q h
  have hx : 0 ≤ ratOfNumString s := ratOfNumString_nonneg s
  have hm : 0 ≤ roundHalfEven (ratOfNumString s * 10) :=
    roundHalfEven_nonneg _ (by positivity)
  subst hq
  refine ⟨?_, roundHalfEven (ratOfNumString s * 10), hm, rfl⟩
  have : (0 : ℚ) ≤ (roundHalfEven (ratOfNumString s * 10) : ℚ) := by exact_mod_cast hm
  simp only [round1]
  positivity

/-- C8 witness: the amended bound instantiated on a concrete fallback
parse. -/
theorem claim_C8_rating_precision_witness :
    0 ≤ (4 : ℚ) ∧ ∃ n : ℤ, 0 ≤ n ∧ (4 : ℚ) = (n : ℚ) / 10 :=
  claim_C8_rating_precision ("4 stars".toList) 4
    (by rw [show parse_rating ("4 stars".toList)
            = some (round1 (ratOfNumString ("4".toList))) from rfl,
          ratOfNumString_val ("4".toList) 4 0 0 rfl rfl rfl,
          round1_of_mul10 _ 40 (by norm_num)]
        norm_num)

/-- The scroll loop never runs past its fuel. -/
theorem scrollLoop_le (env : ScrollEnv) :
    ∀ (fuel i : Nat) (last : Int) (st : Nat),
      scrollLoop env fuel i last st ≤ i - 1 + fuel := by
  intro fuel
  induction fuel with
  | zero => intro i last st; simp [scrollLoop]
  | succ fuel iH =>
    intro i last st
    rw [scrollLoop]
    by_cases hw : env.wheelOk i = false
    · rw [if_pos hw]; omega
    · rw [if_neg hw]
      cases hq : env.query i with
      | none => dsimp only; omega
      | some v =>
        obtain ⟨y, hgt, vh⟩ := v
        dsimp only
        by_cases hb : hgt ≤ y + vh + 5
        · rw [if_pos hb]; omega
        · rw [if_neg hb]
          by_cases hst : 3 ≤ (if y = last then st + 1 else 0)
          · rw [if_pos hst]; omega
          · rw [if_neg hst]
            have hrec := iH (i + 1) (if y = last then last else y)
              (if y = last then st + 1 else 0)
            omega

/-- One non-terminal step of the scroll loop, with the wheel succeeding,
the queries answering, and the true-bottom test failing. -/
theorem scrollLoop_step (env : ScrollEnv) (fuel i : Nat) (last : Int) (st : Nat)
    (y hgt vh : Int)
    (hw : env.wheelOk i = true) (hq : env.query i = some (y, hgt, vh))
    (hb : y + vh + 5 < hgt) :
    scrollLoop env (fuel + 1) i last st =
      (if 3 ≤ (if y = last then st + 1 else 0) then i
       else scrollLoop env fuel (i + 1) (if y = last then last else y)
              (if y = last then st + 1 else 0)) := by
  rw [scrollLoop, hw]
  rw [if_neg (by decide : ¬(true = false))]
  rw [hq]
  dsimp only
  rw [if_neg (by omega : ¬ hgt ≤ y + vh + 5)]

/-- March of the scroll loop towards the stall: entering step i of the
changing phase (or the first stalled step) with a clean stall counter,
the loop stops exactly at step N plus 3. -/
theorem scroll_march (env : ScrollEnv) (y hgt vh : Nat → Int) (N : Nat)
    (hw : ∀ k, env.wheelOk k = true) (hq : ∀ k, env.query k = some (y k, hgt k, vh k))
    (hN2 : N + 3 ≤ 120)
    (hstop : ∀ k, N ≤ k → y k = y N)
    (hmove : ∀ k, 1 ≤ k → k < N → y k ≠ y (k + 1))
    (hbot : ∀ k, y k + vh k + 5 < hgt k) :
    ∀ (d : Nat), ∀ (i : Nat) (last : Int), i + d = N + 1 → 1 ≤ i →
      (i ≤ N → last ≠ y i) → (i = N + 1 → last = y N) →
      scrollLoop env (121 - i) i last 0 = N + 3 := by
  intro d
  induction d with
  | zero =>
    intro i last hiN h1i _ hlast
    have hi : i = N + 1 := by omega
    subst hi
    have hl : last = y N := hlast rfl
    subst hl
    have he1 : y (N + 1) = y N := hstop (N + 1) (by omega)
    have he2 : y (N + 1 + 1) = y N := hstop (N + 1 + 1) (by omega)
    have he3 : y (N + 1 + 1 + 1) = y N := hstop (N + 1 + 1 + 1) (by omega)
    rw [show 121 - (N + 1) = (119 - N) + 1 from by omega,
        scrollLoop_step env (119 - N) (N + 1) (y N) 0 (y (N + 1)) (hgt (N + 1))
          (vh (N + 1)) (hw _) (hq _) (hbot _)]
    simp only [if_pos he1]
    rw [if_neg (by omega : ¬ (3 : Nat) ≤ 0 + 1)]
    rw [show 119 - N = (118 - N) + 1 from by omega,
        scrollLoop_step env (118 - N) (N + 1 + 1) (y N) (0 + 1) (y (N + 1 + 1))
          (hgt (N + 1 + 1)) (vh (N + 1 + 1)) (hw _) (hq _) (hbot _)]
    simp only [if_pos he2]
    rw [if_neg (by omega : ¬ (3 : Nat) ≤ 0 + 1 + 1)]
    rw [show 118 - N = (117 - N) + 1 from by omega,
        scrollLoop_step env (117 - N) (N + 1 + 1 + 1) (y N) (0 + 1 + 1)
          (y (N + 1 + 1 + 1)) (hgt (N + 1 + 1 + 1)) (vh (N + 1 + 1 + 1))
          (hw _) (hq _) (hbot _)]
    simp only [if_pos he3]
    rw [if_pos (by omega : (3 : Nat) ≤ 0 + 1 + 1 + 1)]
  | succ d ihd =>
    intro i last hiN h1i hne _
    have hiN2 : i ≤ N := by omega
    have hne2 : ¬ (y i = last) := fun hh => (hne hiN2) hh.symm
    rw [show 121 - i = (120 - i) + 1 from by omega,
        scrollLoop_step env (120 - i) i last 0 (y i) (hgt i) (vh i)
          (hw _) (hq _) (hbot _)]
    simp only [if_neg hne2]
    rw [if_neg (by omega : ¬ (3 : Nat) ≤ 0)]
    rw [show 120 - i = 121 - (i + 1) from by omega]
    exact ihd (i + 1) (y i) (by omega) (by omega)
      (fun hle => hmove i h1i (by omega))
      (fun he => by rw [show i = N from by omega])

/-- C6: for a synthetic page whose scroll position stops changing after
step N (and whose true-bottom condition is never met), the
bottom-detection loop of scroll_to_bottom stops at exactly step N plus 3
and not earlier; in every case the loop stops within its bound of 120
iterations, and it also stops at the first step whose page query fails or
whose scroll position plus viewport height reaches the document
height. -/
theorem claim_C6_scroll_stall (y hgt vh : Nat → Int) (N : Nat)
    (hN1 : 1 ≤ N) (hN2 : N + 3 ≤ 120)
    (hstop : ∀ k, N ≤ k → y k = y N)
    (hmove : ∀ k, 1 ≤ k → k < N → y k ≠ y (k + 1))
    (hinit : y 1 ≠ -1)
    (hbot : ∀ k, y k + vh k + 5 < hgt k) :
    scrollResult ⟨fun _ => true, fun k => some (y k, hgt k, vh k)⟩ = N + 3 ∧
    (∀ env : ScrollEnv, scrollResult env ≤ 120) ∧
    (∀ env : ScrollEnv, env.wheelOk 1 = true → env.query 1 = none →
        scrollResult env = 1) ∧
    (∀ (env : ScrollEnv) (y1 h1 v1 : Int), env.wheelOk 1 = true →
        env.query 1 = some (y1, h1, v1) → h1 ≤ y1 + v1 + 5 →
        scrollResult env = 1) := by
  refine ⟨?_, ?_, ?_, ?_⟩
  · have hw : ∀ k, (⟨fun _ => true, fun k => some (y k, hgt k, vh k)⟩ :
        ScrollEnv).wheelOk k = true := fun _ => rfl
    have hq : ∀ k, (⟨fun _ => true, fun k => some (y k, hgt k, vh k)⟩ :
        ScrollEnv).query k = some (y k, hgt k, vh k) := fun _ => rfl
    have hm := scroll_march _ y hgt vh N hw hq hN2 hstop hmove hbot N 1 (-1)
      (by omega) (by omega) (fun _ => fun hh => hinit hh.symm)
      (fun he => absurd he (by omega))
    rw [scrollResult]
    rw [show (120 : Nat) = 121 - 1 from rfl]
    exact hm
  · intro env
    have := scrollLoop_le env 120 1 (-1) 0
    rw [scrollResult]
    omega
  · intro env hw1 hq1
    rw [scrollResult, show (120 : Nat) = 119 + 1 from rfl, scrollLoop, hw1]
    rw [if_neg (by decide : ¬(true = false)), hq1]
  · intro env y1 h1 v1 hw1 hq1 hb1
    rw [scrollResult, show (120 : Nat) = 119 + 1 from rfl, scrollLoop, hw1]
    rw [if_neg (by decide : ¬(true = false)), hq1]
    dsimp only
    rw [if_pos hb1]

/-- C6 witness: a driver whose position changes at steps 1 and 2 and then
stalls (with the bottom never reached) stops at step 5. -/
theorem claim_C6_scroll_stall_witness :
    scrollResult ⟨fun _ => true,
      fun k => some (if k ≤ 2 then (k : Int) else 2, 1000, 10)⟩ = 2 + 3 :=
  (claim_C6_scroll_stall (fun k => if k ≤ 2 then (k : Int) else 2)
    (fun _ => 1000) (fun _ => 10) 2
    (by omega) (by omega)
    (by
      intro k hk
      by_cases hk2 : k ≤ 2
      · have : k = 2 := by omega
        subst this; rfl
      · simp [hk2])
    (by
      intro k h1 h2
      have : k = 1 := by omega
      subst this; decide)
    (by decide)
    (by
      intro k
      show (if k ≤ 2 then (k : Int) else 2) + 10 + 5 < 1000
      by_cases hk2 : k ≤ 2
      · rw [if_pos hk2]
        have : (k : Int) ≤ 2 := by exact_mod_cast hk2
        omega
      · rw [if_neg hk2]; omega)).1
